import Mathlib

/-!
Verification of the WireGuard tunnel / userspace network stack repository.

Shallow embedding of the parts of the source that the claims concern:

  * src/wireguard/src/tunnel/window.rs   (replay window)
  * src/net/src/ip/fragment.rs           (IP reassembly)
  * src/net/src/ip/v4.rs                 (IPv4 fragment parsing)
  * src/wireguard/src/tunnel/state.rs    (session expiry, key split)
  * src/wireguard/src/tunnel/timers.rs   (per-peer timer machine)
  * src/wireguard/src/tunnel/mod.rs      (peer wheel, write, handle_data)
  * src/wireguard/src/lib.rs             (rekey timer handler, cookie sizes)
  * src/wireguard/src/noise/chain.rs     (chain consume)
  * src/wireguard/src/packet.rs          (message layouts)
  * src/net/src/udp/mod.rs               (ephemeral port allocation)

Machine integers are modelled as Nat with explicit reductions modulo powers
of two where the source arithmetic can wrap.  Fallible operations return
Except or Option.  External collaborators (the crypto suite, the link
socket) are modelled as parameters: an AEAD open either succeeds or fails,
a link write either succeeds or fails, an HMAC is an arbitrary function.
-/

/-! ## Replay window, src/wireguard/src/tunnel/window.rs -/

namespace Tunnel

/-- Constant WORD_LEN from window.rs: bits of the u64 word. -/
def WORD_LEN : Nat := 64

/-- Constant LEN from window.rs: number of words in the window. -/
def LEN : Nat := 128

/-- Function mask from window.rs: bitmask selecting bit n of its word. -/
def mask (n : Nat) : Nat := 2 ^ (n % WORD_LEN)

/-- Struct Window from window.rs.  The bits field is the array of LEN u64
words (kept as a list of Nat, every entry below 2 to the 64); head is the
highest seen word index. -/
structure Window where
  bits : List Nat
  head : Nat
  deriving DecidableEq

/-- Window::empty from window.rs. -/
def Window.empty : Window := ⟨List.replicate LEN 0, 0⟩

/-- Window::new from window.rs: fresh window with bit n set. -/
def Window.new (n : Nat) : Window :=
  let head := n / WORD_LEN
  ⟨(List.replicate LEN 0).set (head % LEN) (0 ||| mask n), head⟩

/-- The while loop inside Window::guard: advance head one word at a time up
to index, zeroing each newly entered word slot. -/
def Window.slide (w : Window) (index : Nat) : Window :=
  if w.head < index then
    Window.slide ⟨w.bits.set ((w.head + 1) % LEN) 0, w.head + 1⟩ index
  else w
termination_by index - w.head

/-- The read of a bit of the window: bits[index % LEN] & mask(n) != 0, as
tested by the Replay branch of Window::guard. -/
def Window.testBit (w : Window) (n : Nat) : Bool :=
  (w.bits.getD (n / WORD_LEN % LEN) 0) &&& mask n != 0

/-- The final line of Window::guard: bits[index % LEN] |= mask(n). -/
def Window.setBit (w : Window) (n : Nat) : Window :=
  let word := (w.bits.getD (n / WORD_LEN % LEN) 0) ||| mask n
  { w with bits := w.bits.set (n / WORD_LEN % LEN) word }

/-- Window::guard from window.rs.  The FnOnce action is modelled by the
result value it would produce when called; the returned Bool records
whether the action was run.  Branches, in source order: the checked_sub
None case (index past head), the distance at least LEN case, the bit set
case, and the plain case. -/
def Window.guard {α : Type} (w : Window) (n : Nat) (f : Except Unit α) :
    Except Unit α × Window × Bool :=
  if w.head < n / WORD_LEN then
    match f with
    | .error e => (.error e, w, true)
    | .ok y => (.ok y, (w.slide (n / WORD_LEN)).setBit n, true)
  else if LEN ≤ w.head - n / WORD_LEN then
    (.error (), w, false)
  else if w.testBit n then
    (.error (), w, false)
  else
    match f with
    | .error e => (.error e, w, true)
    | .ok y => (.ok y, w.setBit n, true)

theorem Window.slide_head (w : Window) (index : Nat) :
    (Window.slide w index).head = max w.head index := by
  rw [Window.slide]
  split
  · next h =>
    rw [Window.slide_head ⟨w.bits.set ((w.head + 1) % LEN) 0, w.head + 1⟩ index]
    simp only
    omega
  · next h => omega
termination_by index - w.head

theorem Window.slide_length (w : Window) (index : Nat) :
    (Window.slide w index).bits.length = w.bits.length := by
  rw [Window.slide]
  split
  · next h =>
    rw [Window.slide_length ⟨w.bits.set ((w.head + 1) % LEN) 0, w.head + 1⟩ index]
    simp
  · rfl
termination_by index - w.head

theorem getD_set_eq (l : List Nat) (i x : Nat) (h : i < l.length) :
    (l.set i x).getD i 0 = x := by
  simp [List.getD_eq_getElem?_getD, List.getElem?_set_eq_of_lt x h]

theorem getD_set_ne (l : List Nat) (i j x : Nat) (h : i ≠ j) :
    (l.set i x).getD j 0 = l.getD j 0 := by
  simp [List.getD_eq_getElem?_getD, List.getElem?_set_ne h]

/-- Characterization of the slide loop word by word: a slot is zeroed
exactly when some word index in the interval (head, index] maps to it,
and is untouched otherwise. -/
theorem Window.slide_bits (w : Window) (index p : Nat)
    (hw : w.bits.length = LEN) (hp : p < LEN) :
    ((∃ j, w.head < j ∧ j ≤ index ∧ j % LEN = p) →
        ((Window.slide w index).bits.getD p 0 = 0)) ∧
    ((¬ ∃ j, w.head < j ∧ j ≤ index ∧ j % LEN = p) →
        ((Window.slide w index).bits.getD p 0 = w.bits.getD p 0)) := by
  rw [Window.slide]
  split
  · next h =>
    have hlen : (w.bits.set ((w.head + 1) % LEN) 0).length = LEN := by
      simpa using hw
    have ih := Window.slide_bits ⟨w.bits.set ((w.head + 1) % LEN) 0, w.head + 1⟩
      index p hlen hp
    simp only at ih
    constructor
    · rintro ⟨j, hj1, hj2, hj3⟩
      by_cases hcase : ∃ j, w.head + 1 < j ∧ j ≤ index ∧ j % LEN = p
      · exact ih.1 hcase
      · have hj : j = w.head + 1 := by
          rcases Nat.lt_or_ge (w.head + 1) j with hlt | hge
          · exact absurd ⟨j, hlt, hj2, hj3⟩ hcase
          · omega
        rw [ih.2 hcase]
        have hpj : (w.head + 1) % LEN = p := by rw [← hj]; exact hj3
        rw [hpj]
        exact getD_set_eq _ _ _ (by omega)
    · intro hno
      have hno2 : ¬ ∃ j, w.head + 1 < j ∧ j ≤ index ∧ j % LEN = p := by
        rintro ⟨j, hj1, hj2, hj3⟩
        exact hno ⟨j, by omega, hj2, hj3⟩
      rw [ih.2 hno2]
      have hne : (w.head + 1) % LEN ≠ p := by
        intro hcontra
        exact hno ⟨w.head + 1, by omega, by omega, hcontra⟩
      exact getD_set_ne _ _ _ _ hne
  · next h =>
    constructor
    · rintro ⟨j, hj1, hj2, hj3⟩; omega
    · intro _; rfl
termination_by index - w.head

theorem and_two_pow_ne_zero (x k : Nat) : ((x &&& 2 ^ k) != 0) = x.testBit k := by
  rw [Nat.and_two_pow]
  cases h : x.testBit k
  · simp
  · have h2 : (2 : Nat) ^ k ≠ 0 := (Nat.two_pow_pos k).ne'
    simp [h2]

theorem Window.testBit_eq (w : Window) (n : Nat) :
    w.testBit n = (w.bits.getD (n / WORD_LEN % LEN) 0).testBit (n % WORD_LEN) := by
  unfold Window.testBit mask
  exact and_two_pow_ne_zero _ _

theorem Window.setBit_head (w : Window) (n : Nat) : (w.setBit n).head = w.head := rfl

theorem Window.setBit_length (w : Window) (n : Nat) :
    (w.setBit n).bits.length = w.bits.length := by
  simp [Window.setBit]

theorem Window.testBit_setBit_self (w : Window) (n : Nat) (hw : w.bits.length = LEN) :
    (w.setBit n).testBit n = true := by
  rw [Window.testBit_eq]
  show ((w.bits.set (n / WORD_LEN % LEN) _).getD (n / WORD_LEN % LEN) 0).testBit _ = true
  rw [getD_set_eq _ _ _ (by rw [hw]; exact Nat.mod_lt _ (by norm_num [LEN]))]
  simp [mask, Nat.testBit_lor, Nat.testBit_two_pow_self]

theorem Window.guard_error {α : Type} (w : Window) (n : Nat) (e : Unit) :
    (Window.guard w n (.error e : Except Unit α)).1 = .error () ∧
    (Window.guard w n (.error e : Except Unit α)).2.1 = w := by
  cases e
  unfold Window.guard
  split
  · exact ⟨rfl, rfl⟩
  · split
    · exact ⟨rfl, rfl⟩
    · split
      · exact ⟨rfl, rfl⟩
      · exact ⟨rfl, rfl⟩

/-- C1: Window::guard marks the bit for n only if the action returned
success.  If the action fails, guard returns the error and leaves the
window (bits and head) unchanged, so a later guard of the same n still
runs the action.  If the action succeeds and guard accepts, the bit for n
is set afterwards and a second guard of the same n fails without running
its action (replay).  A counter whose word index is LEN = 128 or more
words below the head fails without running the action. -/
theorem C1_replay_window_guard {α : Type} (w : Window) (n : Nat)
    (hw : w.bits.length = LEN) :
    ((Window.guard w n (.error () : Except Unit α)).1 = .error () ∧
      (Window.guard w n (.error () : Except Unit α)).2.1 = w) ∧
    ((Window.guard w n (.error () : Except Unit α)).2.2 = true →
      ∀ y : α, (Window.guard w n (.ok y)).1 = .ok y) ∧
    (∀ y : α, (Window.guard w n (.ok y)).1 = .ok y →
      ((Window.guard w n (.ok y)).2.1).testBit n = true ∧
      ∀ r : Except Unit α,
        (Window.guard ((Window.guard w n (.ok y)).2.1) n r).1 = .error () ∧
        (Window.guard ((Window.guard w n (.ok y)).2.1) n r).2.2 = false) ∧
    (n / WORD_LEN + LEN ≤ w.head →
      ∀ r : Except Unit α,
        (Window.guard w n r).1 = .error () ∧ (Window.guard w n r).2.2 = false) := by
  by_cases h1 : w.head < n / WORD_LEN
  · -- the checked_sub None branch: the counter is past the head
    have hgerr : Window.guard w n (.error () : Except Unit α) = (.error (), w, true) := by
      unfold Window.guard; rw [if_pos h1]
    refine ⟨by rw [hgerr]; exact ⟨rfl, rfl⟩, ?_, ?_, ?_⟩
    · intro _ y
      have hgok : Window.guard w n (.ok y : Except Unit α)
          = (.ok y, (w.slide (n / WORD_LEN)).setBit n, true) := by
        unfold Window.guard; rw [if_pos h1]
      rw [hgok]
    · intro y _
      have hgok : Window.guard w n (.ok y : Except Unit α)
          = (.ok y, (w.slide (n / WORD_LEN)).setBit n, true) := by
        unfold Window.guard; rw [if_pos h1]
      rw [hgok]
      dsimp only
      have hhead : ((w.slide (n / WORD_LEN)).setBit n).head = n / WORD_LEN := by
        rw [Window.setBit_head, Window.slide_head]; omega
      have hbit : ((w.slide (n / WORD_LEN)).setBit n).testBit n = true := by
        exact Window.testBit_setBit_self _ n (by rw [Window.slide_length, hw])
      refine ⟨hbit, fun r => ?_⟩
      unfold Window.guard
      rw [if_neg (by rw [hhead]; omega), if_neg (by rw [hhead]; norm_num [LEN]), if_pos hbit]
      exact ⟨rfl, rfl⟩
    · intro htoo; omega
  · by_cases h2 : LEN ≤ w.head - n / WORD_LEN
    · -- the too-old branch
      have hg : ∀ r : Except Unit α, Window.guard w n r = (.error (), w, false) := by
        intro r; unfold Window.guard; rw [if_neg h1, if_pos h2]
      refine ⟨by rw [hg]; exact ⟨rfl, rfl⟩, ?_, ?_,
        fun _ r => by rw [hg]; exact ⟨rfl, rfl⟩⟩
      · intro hran; rw [hg] at hran; simp at hran
      · intro y hok; rw [hg] at hok; simp at hok
    · by_cases h3 : w.testBit n
      · -- the replay branch
        have hg : ∀ r : Except Unit α, Window.guard w n r = (.error (), w, false) := by
          intro r; unfold Window.guard; rw [if_neg h1, if_neg h2, if_pos h3]
        refine ⟨by rw [hg]; exact ⟨rfl, rfl⟩, ?_, ?_, fun htoo r => by omega⟩
        · intro hran; rw [hg] at hran; simp at hran
        · intro y hok; rw [hg] at hok; simp at hok
      · -- the plain accept branch
        have hgerr : Window.guard w n (.error () : Except Unit α) = (.error (), w, true) := by
          unfold Window.guard; rw [if_neg h1, if_neg h2, if_neg h3]
        refine ⟨by rw [hgerr]; exact ⟨rfl, rfl⟩, ?_, ?_, fun htoo r => by omega⟩
        · intro _ y
          have hgok : Window.guard w n (.ok y : Except Unit α)
              = (.ok y, w.setBit n, true) := by
            unfold Window.guard; rw [if_neg h1, if_neg h2, if_neg h3]
          rw [hgok]
        · intro y _
          have hgok : Window.guard w n (.ok y : Except Unit α)
              = (.ok y, w.setBit n, true) := by
            unfold Window.guard; rw [if_neg h1, if_neg h2, if_neg h3]
          rw [hgok]
          dsimp only
          have hbit : (w.setBit n).testBit n = true := Window.testBit_setBit_self w n hw
          refine ⟨hbit, fun r => ?_⟩
          unfold Window.guard
          rw [if_neg (by rw [Window.setBit_head]; exact h1)]
          rw [if_neg (by rw [Window.setBit_head]; exact h2), if_pos hbit]
          exact ⟨rfl, rfl⟩

/-- Witness for C1 at the empty window and counter 5. -/
theorem C1_witness :
    (Window.guard Window.empty 5 (.error () : Except Unit Nat)).1 = .error () ∧
    (Window.guard Window.empty 5 (.error () : Except Unit Nat)).2.1 = Window.empty :=
  (C1_replay_window_guard Window.empty 5 (by simp [Window.empty])).1

theorem Window.testBit_setBit_same_slot (w : Window) (n m : Nat)
    (hw : w.bits.length = LEN) (hslot : m / WORD_LEN % LEN = n / WORD_LEN % LEN) :
    (w.setBit n).testBit m = (w.testBit m || decide (m % WORD_LEN = n % WORD_LEN)) := by
  rw [Window.testBit_eq, Window.testBit_eq]
  show ((w.bits.set (n / WORD_LEN % LEN) _).getD (m / WORD_LEN % LEN) 0).testBit _ = _
  rw [hslot, getD_set_eq _ _ _ (by rw [hw]; exact Nat.mod_lt _ (by norm_num [LEN]))]
  rw [Nat.testBit_lor]
  unfold mask
  rw [Nat.testBit_two_pow]
  simp [eq_comm]

theorem Window.testBit_setBit_other_slot (w : Window) (n m : Nat)
    (hslot : m / WORD_LEN % LEN ≠ n / WORD_LEN % LEN) :
    (w.setBit n).testBit m = w.testBit m := by
  rw [Window.testBit_eq, Window.testBit_eq]
  show ((w.bits.set (n / WORD_LEN % LEN) _).getD (m / WORD_LEN % LEN) 0).testBit _ = _
  rw [getD_set_ne _ _ _ _ (Ne.symm hslot)]

theorem Window.testBit_empty (m : Nat) : Window.empty.testBit m = false := by
  rw [Window.testBit_eq]
  show ((List.replicate LEN 0).getD _ 0).testBit _ = false
  rw [List.getD_eq_getElem?_getD, List.getElem?_replicate]
  split <;> simp

/-! ## Naive replay reference (C2)

The reference is modelled from the words of the specification, not from the
source: it keeps the set of already accepted counters and the highest
accepted counter, and accepts a counter iff it is not in the set and its
word index is fewer than LEN = 128 words of WORD_LEN = 64 bits (8192
counter values) below the word index of the highest. -/

/-- Modelled from the spec: state of the naive reference. -/
structure RefState where
  accepted : List Nat
  hi : Nat
  deriving DecidableEq

/-- Modelled from the spec: initial reference state, nothing accepted. -/
def RefState.empty : RefState := ⟨[], 0⟩

/-- Modelled from the spec: the reference accepts a counter iff it is not
in the set and not more than 8191 below the highest, by word distance. -/
def RefState.accepts (s : RefState) (n : Nat) : Bool :=
  decide (n ∉ s.accepted) && decide (s.hi / WORD_LEN < n / WORD_LEN + LEN)

/-- Modelled from the spec: record an accepted counter. -/
def RefState.insert (s : RefState) (n : Nat) : RefState :=
  ⟨n :: s.accepted, max s.hi n⟩

deriving instance DecidableEq for Except

/-- Run Window::guard over a sequence of counters, each with an
always-succeeding action, recording which are accepted. -/
def runWindow : Window → List Nat → List Bool
  | _, [] => []
  | w, n :: ns =>
    let g := Window.guard w n (.ok 0 : Except Unit Nat)
    decide (g.1 = .ok 0) :: runWindow g.2.1 ns

/-- Run the naive reference over a sequence of counters. -/
def runRef : RefState → List Nat → List Bool
  | _, [] => []
  | s, n :: ns =>
    if s.accepts n then true :: runRef (s.insert n) ns
    else false :: runRef s ns

/-- Simulation invariant between a window and the reference state. -/
def Inv (w : Window) (s : RefState) : Prop :=
  w.bits.length = LEN ∧
  w.head = s.hi / WORD_LEN ∧
  (∀ m ∈ s.accepted, m ≤ s.hi) ∧
  (∀ m : Nat, m / WORD_LEN ≤ w.head → w.head < m / WORD_LEN + LEN →
    (w.testBit m = true ↔ m ∈ s.accepted))

theorem Inv.empty : Inv Window.empty RefState.empty := by
  refine ⟨by simp [Window.empty], rfl, by simp [RefState.empty], ?_⟩
  intro m _ _
  rw [Window.testBit_empty]
  simp [RefState.empty]

/-- One step of the simulation: under the invariant, guard with an
always-succeeding action accepts exactly when the reference accepts, and
the invariant is preserved. -/
theorem guard_ref_step (w : Window) (s : RefState) (n : Nat) (h : Inv w s) :
    decide ((Window.guard w n (.ok 0 : Except Unit Nat)).1 = .ok 0) = s.accepts n ∧
    (s.accepts n = true →
      Inv (Window.guard w n (.ok 0 : Except Unit Nat)).2.1 (s.insert n)) ∧
    (s.accepts n = false → (Window.guard w n (.ok 0 : Except Unit Nat)).2.1 = w) := by
  obtain ⟨hlen, hhead, hbound, hbits⟩ := h
  have hp : n / WORD_LEN % LEN < LEN := Nat.mod_lt _ (by norm_num [LEN])
  by_cases h1 : w.head < n / WORD_LEN
  · -- counter past the head: guard accepts via the slide branch
    have hgok : Window.guard w n (.ok 0 : Except Unit Nat)
        = (.ok 0, (w.slide (n / WORD_LEN)).setBit n, true) := by
      unfold Window.guard; rw [if_pos h1]
    have hnotmem : n ∉ s.accepted := by
      intro hmem
      have h2 : n / WORD_LEN ≤ s.hi / WORD_LEN := Nat.div_le_div_right (hbound n hmem)
      omega
    have hacc : s.accepts n = true := by
      simp only [RefState.accepts, Bool.and_eq_true, decide_eq_true_eq]
      exact ⟨hnotmem, by omega⟩
    have hhi : s.hi < n := by
      by_contra hcon
      push_neg at hcon
      have h2 : n / WORD_LEN ≤ s.hi / WORD_LEN := Nat.div_le_div_right hcon
      omega
    rw [hgok]
    refine ⟨by simp [hacc], fun _ => ?_, fun hcon => by rw [hacc] at hcon; cases hcon⟩
    have hslidelen : (w.slide (n / WORD_LEN)).bits.length = LEN := by
      rw [Window.slide_length, hlen]
    refine ⟨?_, ?_, ?_, ?_⟩
    · show ((w.slide (n / WORD_LEN)).setBit n).bits.length = LEN
      rw [Window.setBit_length, hslidelen]
    · show ((w.slide (n / WORD_LEN)).setBit n).head = (s.insert n).hi / WORD_LEN
      rw [Window.setBit_head, Window.slide_head]
      show max w.head (n / WORD_LEN) = (max s.hi n) / WORD_LEN
      rw [Nat.max_eq_right (Nat.le_of_lt hhi)]
      omega
    · intro m hm
      simp only [RefState.insert, List.mem_cons] at hm ⊢
      rcases hm with rfl | hm
      · exact Nat.le_max_right _ _
      · exact Nat.le_trans (hbound m hm) (Nat.le_max_left _ _)
    · intro m hm1 hm2
      rw [Window.setBit_head, Window.slide_head] at hm1 hm2
      have hm1 : m / WORD_LEN ≤ n / WORD_LEN := by omega
      have hm2 : n / WORD_LEN < m / WORD_LEN + LEN := by omega
      have hmem2 : (m ∈ (s.insert n).accepted) = (m = n ∨ m ∈ s.accepted) := by
        simp [RefState.insert]
      by_cases hsame : m / WORD_LEN = n / WORD_LEN
      · rw [Window.testBit_setBit_same_slot _ _ _ hslidelen (by rw [hsame])]
        have hz := (Window.slide_bits w (n / WORD_LEN) (m / WORD_LEN % LEN) hlen
          (Nat.mod_lt _ (by norm_num [LEN]))).1
          ⟨n / WORD_LEN, h1, Nat.le_refl _, by rw [hsame]⟩
        have hzero : (w.slide (n / WORD_LEN)).testBit m = false := by
          rw [Window.testBit_eq, hz]
          exact Nat.zero_testBit _
        rw [hzero, hmem2]
        simp only [Bool.false_or, decide_eq_true_eq]
        constructor
        · intro hmod
          left
          simp only [WORD_LEN] at hsame hmod
          omega
        · rintro (rfl | hm)
          · rfl
          · exfalso
            have h2 : m / WORD_LEN ≤ s.hi / WORD_LEN := Nat.div_le_div_right (hbound m hm)
            omega
      · have hslotne : m / WORD_LEN % LEN ≠ n / WORD_LEN % LEN := by
          simp only [WORD_LEN, LEN] at *
          omega
        rw [Window.testBit_setBit_other_slot _ _ _ hslotne, hmem2]
        by_cases hgt : w.head < m / WORD_LEN
        · have hz := (Window.slide_bits w (n / WORD_LEN) (m / WORD_LEN % LEN) hlen
            (Nat.mod_lt _ (by norm_num [LEN]))).1 ⟨m / WORD_LEN, hgt, hm1, rfl⟩
          rw [Window.testBit_eq, hz]
          simp only [Nat.zero_testBit, Bool.false_eq_true, false_iff]
          rintro (rfl | hm)
          · exact hsame rfl
          · have h2 : m / WORD_LEN ≤ s.hi / WORD_LEN := Nat.div_le_div_right (hbound m hm)
            omega
        · push_neg at hgt
          have hnoj : ¬ ∃ j, w.head < j ∧ j ≤ n / WORD_LEN ∧
              j % LEN = m / WORD_LEN % LEN := by
            rintro ⟨j, hj1, hj2, hj3⟩
            simp only [LEN] at *
            omega
          have hz := (Window.slide_bits w (n / WORD_LEN) (m / WORD_LEN % LEN) hlen
            (Nat.mod_lt _ (by norm_num [LEN]))).2 hnoj
          rw [Window.testBit_eq, hz, ← Window.testBit_eq]
          rw [hbits m hgt (by omega)]
          constructor
          · exact fun hm => Or.inr hm
          · rintro (rfl | hm)
            · exact absurd rfl hsame
            · exact hm
  · by_cases h2 : LEN ≤ w.head - n / WORD_LEN
    · -- too old: both reject
      have hg : Window.guard w n (.ok 0 : Except Unit Nat) = (.error (), w, false) := by
        unfold Window.guard; rw [if_neg h1, if_pos h2]
      have hacc : s.accepts n = false := by
        simp only [RefState.accepts, Bool.and_eq_false_iff, decide_eq_false_iff_not]
        right
        omega
      rw [hg, hacc]
      exact ⟨by simp, fun hcon => absurd hcon Bool.false_ne_true, fun _ => rfl⟩
    · by_cases h3 : w.testBit n
      · -- replay: the bit is set, so the counter is in the reference set
        have hg : Window.guard w n (.ok 0 : Except Unit Nat) = (.error (), w, false) := by
          unfold Window.guard; rw [if_neg h1, if_neg h2, if_pos h3]
        have hmem : n ∈ s.accepted := (hbits n (by omega) (by omega)).1 h3
        have hacc : s.accepts n = false := by
          simp only [RefState.accepts, Bool.and_eq_false_iff, decide_eq_false_iff_not]
          left
          simp [hmem]
        rw [hg, hacc]
        exact ⟨by simp, fun hcon => absurd hcon Bool.false_ne_true, fun _ => rfl⟩
      · -- in the window, bit clear: both accept
        have hgok : Window.guard w n (.ok 0 : Except Unit Nat)
            = (.ok 0, w.setBit n, true) := by
          unfold Window.guard; rw [if_neg h1, if_neg h2, if_neg h3]
        have hnotmem : n ∉ s.accepted := fun hmem =>
          by simp [(hbits n (by omega) (by omega)).2 hmem] at h3
        have hacc : s.accepts n = true := by
          simp only [RefState.accepts, Bool.and_eq_true, decide_eq_true_eq]
          exact ⟨hnotmem, by omega⟩
        rw [hgok]
        refine ⟨by simp [hacc], fun _ => ?_, fun hcon => by rw [hacc] at hcon; cases hcon⟩
        have hhidiv : (max s.hi n) / WORD_LEN = s.hi / WORD_LEN := by
          rcases Nat.le_total n s.hi with hle | hle
          · rw [Nat.max_eq_left hle]
          · rw [Nat.max_eq_right hle]
            have h4 : s.hi / WORD_LEN ≤ n / WORD_LEN := Nat.div_le_div_right hle
            omega
        refine ⟨?_, ?_, ?_, ?_⟩
        · show (w.setBit n).bits.length = LEN
          rw [Window.setBit_length, hlen]
        · show (w.setBit n).head = (max s.hi n) / WORD_LEN
          rw [Window.setBit_head, hhidiv]
          exact hhead
        · intro m hm
          simp only [RefState.insert, List.mem_cons] at hm ⊢
          rcases hm with rfl | hm
          · exact Nat.le_max_right _ _
          · exact Nat.le_trans (hbound m hm) (Nat.le_max_left _ _)
        · intro m hm1 hm2
          rw [Window.setBit_head] at hm1 hm2
          have hmem2 : (m ∈ (s.insert n).accepted) = (m = n ∨ m ∈ s.accepted) := by
            simp [RefState.insert]
          by_cases hsame : m / WORD_LEN = n / WORD_LEN
          · rw [Window.testBit_setBit_same_slot _ _ _ hlen (by rw [hsame]), hmem2]
            simp only [Bool.or_eq_true, decide_eq_true_eq, hbits m hm1 hm2]
            constructor
            · rintro (hm | hmod)
              · exact Or.inr hm
              · left
                simp only [WORD_LEN] at hsame hmod
                omega
            · rintro (rfl | hm)
              · exact Or.inr rfl
              · exact Or.inl hm
          · have hslotne : m / WORD_LEN % LEN ≠ n / WORD_LEN % LEN := by
              simp only [WORD_LEN, LEN] at *
              omega
            rw [Window.testBit_setBit_other_slot _ _ _ hslotne, hmem2]
            rw [hbits m hm1 hm2]
            constructor
            · exact fun hm => Or.inr hm
            · rintro (rfl | hm)
              · exact absurd rfl hsame
              · exact hm



theorem runWindow_eq_runRef (ns : List Nat) :
    ∀ (w : Window) (s : RefState), Inv w s → runWindow w ns = runRef s ns := by
  induction ns with
  | nil => intro w s _; rfl
  | cons n ns ih =>
    intro w s h
    have step := guard_ref_step w s n h
    show decide ((Window.guard w n (.ok 0 : Except Unit Nat)).1 = .ok 0) ::
        runWindow (Window.guard w n (.ok 0 : Except Unit Nat)).2.1 ns = runRef s (n :: ns)
    cases hacc : s.accepts n
    · have hstate := step.2.2 hacc
      rw [hacc] at step
      show _ :: _ = runRef s (n :: ns)
      unfold runRef
      rw [if_neg (by rw [hacc]; exact Bool.false_ne_true)]
      rw [step.1, hstate]
      exact congrArg _ (ih w s h)
    · have hinv := step.2.1 hacc
      rw [hacc] at step
      unfold runRef
      rw [if_pos hacc]
      rw [step.1]
      exact congrArg _ (ih _ _ hinv)

/-- C2: over any sequence of counters guarded with always-succeeding
actions, Window::guard accepts exactly the counters the naive reference
accepts (set membership plus word distance below 128 words of 64 bits),
and the slide inside guard zeroes exactly the word slots between the old
head and the new head. -/
theorem C2_window_refines_reference :
    (∀ ns : List Nat, runWindow Window.empty ns = runRef RefState.empty ns) ∧
    (∀ (w : Window) (index p : Nat), w.bits.length = LEN → p < LEN →
      ((∃ j, w.head < j ∧ j ≤ index ∧ j % LEN = p) →
        (Window.slide w index).bits.getD p 0 = 0) ∧
      ((¬ ∃ j, w.head < j ∧ j ≤ index ∧ j % LEN = p) →
        (Window.slide w index).bits.getD p 0 = w.bits.getD p 0)) :=
  ⟨fun ns => runWindow_eq_runRef ns _ _ Inv.empty,
   fun w index p hw hp => Window.slide_bits w index p hw hp⟩

/-- Witness for C2: a concrete counter sequence, and the slide
characterization instantiated at the empty window. -/
theorem C2_witness :
    runWindow Window.empty [0, 1, 2, 5, 3, 8192, 0] =
      runRef RefState.empty [0, 1, 2, 5, 3, 8192, 0] ∧
    (((∃ j, Window.empty.head < j ∧ j ≤ 130 ∧ j % LEN = 2) →
        (Window.empty.slide 130).bits.getD 2 0 = 0) ∧
      ((¬ ∃ j, Window.empty.head < j ∧ j ≤ 130 ∧ j % LEN = 2) →
        (Window.empty.slide 130).bits.getD 2 0 = Window.empty.bits.getD 2 0)) :=
  ⟨C2_window_refines_reference.1 [0, 1, 2, 5, 3, 8192, 0],
   C2_window_refines_reference.2 Window.empty 130 2 (by simp [Window.empty])
     (by norm_num [LEN])⟩

end Tunnel

/-! ## IP fragment reassembly, src/net/src/ip/fragment.rs -/

namespace Ip

/-- Struct Fragment from fragment.rs: the more flag, the byte offset
(documented in the source as the byte offset of the fragment; a u16), and
the byte data. -/
structure Fragment where
  more : Bool
  start : Nat
  buf : List Nat
  deriving DecidableEq

/-- Fragment::end from fragment.rs: start + buf.len() as u16 arithmetic
(wraps modulo 2 to the 16). -/
def Fragment.endOff (f : Fragment) : Nat := (f.start + f.buf.length) % 65536

/-- State::try_insert from fragment.rs.  The fragments list is kept sorted
by start offset; binary_search_by_key on such a list finds an equal start
if one exists (the overlap rejection), else the insertion point, whose
predecessor and successor are the elements around the split at the new
start.  Checks in source order: equal start, predecessor overlap, then for
an existing successor the more flag of the new fragment and successor
overlap. -/
def tryInsert (l : List Fragment) (f : Fragment) : Option (List Fragment) :=
  let pre := l.takeWhile (fun x => x.start < f.start)
  let post := l.dropWhile (fun x => x.start < f.start)
  if post.head?.any (fun x => x.start == f.start) then none
  else if pre.getLast?.any (fun p => f.start < p.endOff) then none
  else
    match post.head? with
    | some s =>
      if f.more then none
      else if s.start < f.endOff then none
      else some (pre ++ f :: post)
    | none => some (pre ++ f :: post)

/-- The contiguity loop of State::assemble: each fragment must start at the
running expected offset, which advances by the fragment length in u16
arithmetic. -/
def contiguousFrom : List Fragment → Nat → Bool
  | [], _ => true
  | f :: fs, expected =>
    f.start == expected && contiguousFrom fs ((expected + f.buf.length) % 65536)

/-- Total length accumulated by State::assemble. -/
def totalLen (l : List Fragment) : Nat := (l.map (fun f => f.buf.length)).sum

/-- One copy_from_slice of State::assemble: overwrite alloc[start..start+len]
with buf. -/
def writeAt (alloc : List Nat) (start : Nat) (buf : List Nat) : List Nat :=
  alloc.take start ++ buf ++ alloc.drop (start + buf.length)

/-- State::assemble from fragment.rs: fail if the last fragment has the
more flag or the offsets are not contiguous from zero; otherwise copy every
fragment into a fresh allocation of the total length. -/
def assemble (l : List Fragment) : Option (List Nat) :=
  match l.getLast? with
  | none => none
  | some last =>
    if last.more then none
    else if contiguousFrom l 0 then
      some (l.foldl (fun a f => writeAt a f.start f.buf) (List.replicate (totalLen l) 0))
    else none

/-- Interface::handle_fragment from fragment.rs, for a single reassembly
key: the vacant branch stores the fragment without attempting assembly;
the occupied branch inserts (propagating rejection as an error) and on a
complete packet removes the entry and delivers the buffer. -/
def handleFragment (st : Option (List Fragment)) (f : Fragment) :
    Except Unit (Option (List Fragment) × Option (List Nat)) :=
  match st with
  | none => .ok (some [f], none)
  | some l =>
    match tryInsert l f with
    | none => .error ()
    | some l2 =>
      match assemble l2 with
      | some buf => .ok (none, some buf)
      | none => .ok (some l2, none)

/-- C3: the failing input.  Fragments A = [0, 16) with more = true and
B = [16, 24) with more = false form a non-overlapping cover of [0, 24)
whose last fragment alone has more = false; inserting them in the order
B then A is rejected at the second insert (try_insert refuses any fragment
with more = true that has a successor), although inserting A then B
succeeds and assembles the full packet.  This contradicts the claim (and
the comment in the source above the check), which reject only a fragment
with more = false that is followed by another fragment. -/
theorem C3_fragment_out_of_order_rejected :
    tryInsert [Fragment.mk false 16 (List.replicate 8 2)]
        (Fragment.mk true 0 (List.replicate 16 1)) = none ∧
    handleFragment (some [Fragment.mk false 16 (List.replicate 8 2)])
        (Fragment.mk true 0 (List.replicate 16 1)) = .error () ∧
    tryInsert [Fragment.mk true 0 (List.replicate 16 1)]
        (Fragment.mk false 16 (List.replicate 8 2)) =
      some [Fragment.mk true 0 (List.replicate 16 1),
            Fragment.mk false 16 (List.replicate 8 2)] ∧
    assemble [Fragment.mk true 0 (List.replicate 16 1),
              Fragment.mk false 16 (List.replicate 8 2)] =
      some (List.replicate 16 1 ++ List.replicate 8 2) := by
  refine ⟨rfl, rfl, rfl, ?_⟩
  decide

end Ip

/-! ## IPv4 fragment word parsing and routing, src/net/src/ip/v4.rs -/

namespace Ip

/-- Field decomposition of the bilge Fragment(32) bitfield in v4.rs,
applied to the 32-bit value obtained by reading the four header bytes
(identification then flags and offset) big-endian: lowest 13 bits ofst,
bit 13 more, bit 14 dont, bit 15 reserved, bits 16 to 31 idnt. -/
structure FragBits where
  ofst : Nat
  more : Bool
  dont : Bool
  idnt : Nat
  deriving DecidableEq

/-- Parse the fragment word of the IPv4 header. -/
def parseFrg (v : Nat) : FragBits :=
  { ofst := v % 2 ^ 13
    more := v / 2 ^ 13 % 2 == 1
    dont := v / 2 ^ 14 % 2 == 1
    idnt := v / 2 ^ 16 % 2 ^ 16 }

/-- Big-endian assembly of the identification and fragment bytes of the
IPv4 header (bytes 4 to 7). -/
def frgWord (b4 b5 b6 b7 : Nat) : Nat := ((b4 * 256 + b5) * 256 + b6) * 256 + b7

/-- Routing outcome of Interface::recv_v4 for the payload. -/
inductive Route
  | direct
  | toFragment (start : Nat) (more : Bool) (ident : Nat)
  deriving DecidableEq

/-- The fragment routing of Interface::recv_v4 in v4.rs: with start taken
from the ofst field value and more from the flag, an unfragmented packet
(start zero and no more flag) goes to the transport handler, anything else
is wrapped in a Fragment with that start and handed to reassembly.  The
source assigns start = frag.ofst().value() with no scaling. -/
def recvV4Route (v : Nat) : Route :=
  let f := parseFrg v
  if f.ofst = 0 && !f.more then .direct
  else .toFragment f.ofst f.more f.idnt

/-- C4: evaluation at the failing input.  A header whose fragment bytes
are 0x20 0x02 (more flag set, offset field f = 2, so byte offset 16) is
handed to reassembly with start = 2, not 8 * 2: the source passes the raw
13-bit field as the byte offset.  A packet with f = 0 and the more flag
clear goes straight to the transport layer, as the claim states. -/
theorem C4_fragment_offset_not_scaled :
    recvV4Route (frgWord 0 0 32 2) = Route.toFragment 2 true 0 ∧
    Route.toFragment 2 true 0 ≠ Route.toFragment (8 * 2) true 0 ∧
    recvV4Route (frgWord 0 7 0 0) = Route.direct := by
  refine ⟨rfl, by decide, rfl⟩

end Ip

/-! ## Sessions, timers and the peer wheel
src/wireguard/src/tunnel/state.rs, timers.rs, mod.rs, src/wireguard/src/lib.rs.
Instants and durations are in milliseconds; Instant subtraction saturates
at zero like Nat subtraction. -/

namespace Wg

/-- Constant REKEY_TIMEOUT from timers.rs (5 s). -/
def REKEY_TIMEOUT : Nat := 5000

/-- Constant REKEY_ATTEMPT_TIME from timers.rs (90 s). -/
def REKEY_ATTEMPT_TIME : Nat := 90000

/-- Constant KEEPALIVE_TIMEOUT from timers.rs (10 s). -/
def KEEPALIVE_TIMEOUT : Nat := 10000

/-- Constant REKEY_AFTER_TIME from timers.rs (120 s). -/
def REKEY_AFTER_TIME : Nat := 120000

/-- Constant REJECT_AFTER_TIME from timers.rs (180 s). -/
def REJECT_AFTER_TIME : Nat := 180000

/-- Constant REKEY_AFTER_MESSAGES from state.rs: 2 to the 60. -/
def REKEY_AFTER_MESSAGES : Nat := 2 ^ 60

/-- Constant REJECT_AFTER_MESSAGES from state.rs: u64::MAX - 2.pow(13),
that is 2 to the 64 minus 1 minus 2 to the 13. -/
def REJECT_AFTER_MESSAGES : Nat := 2 ^ 64 - 1 - 2 ^ 13

/-- The send-relevant state of struct Tunnel from state.rs: the role, the
establishment instant (recv.time), the send counter sctr and the session
index sidx.  Keys and the receive window are kept externally. -/
structure Tun where
  roleInit : Bool
  est : Nat
  sctr : Nat
  sidx : Nat
  deriving DecidableEq

/-- Tunnel::is_send_expired from state.rs: now.duration_since(recv.time)
at least REJECT_AFTER_TIME, or sctr + 1 at least REJECT_AFTER_MESSAGES
(u64 arithmetic). -/
def Tun.isSendExpired (t : Tun) (now : Nat) : Bool :=
  decide (REJECT_AFTER_TIME ≤ now - t.est) ||
  decide (REJECT_AFTER_MESSAGES ≤ (t.sctr + 1) % 2 ^ 64)

/-- Struct Timers from timers.rs: the rekey max-timer deadline (none when
deleted), the keepalive fixed-timer slot (none when cleared, matching
FixedTimerKey::default), and rekey_start. -/
structure TimersM where
  rekey : Option Nat
  keepalive : Option Nat
  rekeyStart : Option Nat
  deriving DecidableEq

/-- Timers::new. -/
def TimersM.new : TimersM := ⟨none, none, none⟩

/-- Timers::reset_rekey via the stakker timer_max macro: the deadline is
extended to the later of the old deadline and now + duration. -/
def TimersM.resetRekey (t : TimersM) (now dur : Nat) : TimersM :=
  { t with rekey := some (max (t.rekey.getD 0) (now + dur)) }

/-- Timers::reset_keepalive: arms only when the slot is clear. -/
def TimersM.resetKeepalive (t : TimersM) (now dur : Nat) : TimersM :=
  if t.keepalive = none then { t with keepalive := some (now + dur) } else t

/-- Timers::send_data: for a non-keepalive, delete the keepalive timer and
extend the rekey deadline by KEEPALIVE_TIMEOUT + REKEY_TIMEOUT; in both
cases clear the keepalive slot. -/
def TimersM.sendData (t : TimersM) (now : Nat) (isKeepalive : Bool) : TimersM :=
  if isKeepalive then { t with keepalive := none }
  else { t.resetRekey now (KEEPALIVE_TIMEOUT + REKEY_TIMEOUT) with keepalive := none }

/-- Timers::recv_data: delete the rekey timer; for a non-keepalive arm the
keepalive timer at KEEPALIVE_TIMEOUT. -/
def TimersM.recvData (t : TimersM) (now : Nat) (isKeepalive : Bool) : TimersM :=
  let t2 : TimersM := { t with rekey := none }
  if isKeepalive then t2 else t2.resetKeepalive now KEEPALIVE_TIMEOUT

/-- Timers::send_init: stamp rekey_start when unset, then extend the rekey
deadline by REKEY_TIMEOUT plus the random jitter in [0, 333). -/
def TimersM.sendInit (t : TimersM) (now jitter : Nat) : TimersM :=
  let t2 : TimersM :=
    if t.rekeyStart = none then { t with rekeyStart := some now } else t
  t2.resetRekey now (REKEY_TIMEOUT + jitter)

/-- Timers::is_rekeying. -/
def TimersM.isRekeying (t : TimersM) : Bool := t.rekeyStart.isSome

/-- Timers::rekey_elapsed. -/
def TimersM.rekeyElapsed (t : TimersM) (now : Nat) : Bool :=
  match t.rekeyStart with
  | none => false
  | some s => decide (REKEY_ATTEMPT_TIME ≤ now - s)

/-- Struct Peer with struct Wheel from tunnel/mod.rs: prev keeps only the
session index of the retained receive simplex, next keeps its index and
creation instant, sent keeps the index of the outstanding handshake; the
queue of deferred payload closures is kept as its length, and idx_cur is
the session index generator of struct Noise. -/
structure PeerM where
  prevIdx : Option Nat
  pair : Option Tun
  next : Option (Nat × Nat)
  sentIdx : Option Nat
  idxCur : Nat
  queueLen : Nat
  timers : TimersM
  deriving DecidableEq

/-- Peer::create_initiation with Noise::create_initiation and new_idx from
tunnel/mod.rs: the message goes out through a link write whose success is
the external outcome okInit; the sent slot and the timers are updated only
on success, while the idx counter always advances (the closure runs before
the send can fail). -/
def PeerM.createInitiation (p : PeerM) (now jitter : Nat) (okInit : Bool) : Bool × PeerM :=
  if okInit then
    (true, { p with
      sentIdx := some p.idxCur
      idxCur := (p.idxCur + 1) % 2 ^ 32
      timers := p.timers.sendInit now jitter })
  else
    (false, { p with idxCur := (p.idxCur + 1) % 2 ^ 32 })

/-- Peer::rekey from tunnel/mod.rs: only send an initiation when none is
outstanding. -/
def PeerM.rekeyIfIdle (p : PeerM) (now jitter : Nat) (okInit : Bool) : Bool × PeerM :=
  if p.timers.isRekeying then (true, p) else p.createInitiation now jitter okInit

/-- Which arm of the match in Peer::write ran. -/
inductive WriteAction
  | encrypted
  | queued
  | keepaliveFailed
  deriving DecidableEq

/-- The second and third arms of Peer::write: a non-keepalive payload is
queued (dropping the pair slot) and a rekey is triggered; a keepalive with
no usable pair is an error. -/
def PeerM.writeFallback (p : PeerM) (now : Nat) (isKeepalive : Bool) (jitter : Nat)
    (okInit : Bool) : WriteAction × Bool × PeerM :=
  if !isKeepalive then
    let p1 : PeerM := { p with pair := none, queueLen := p.queueLen + 1 }
    let r := p1.rekeyIfIdle now jitter okInit
    (.queued, r.1, r.2)
  else (.keepaliveFailed, false, p)

/-- Peer::write from tunnel/mod.rs.  okSend is the external outcome of the
link write carrying the data packet; the Tunnel::send closure runs inside
it, so the send counter advances even when the link write fails, in which
case the error propagates before the timer update and the rekey check. -/
def PeerM.write (p : PeerM) (now : Nat) (isKeepalive : Bool) (jitter : Nat)
    (okSend okInit : Bool) : WriteAction × Bool × PeerM :=
  match p.pair with
  | some t =>
    if !(t.isSendExpired now) then
      let rekeyFlag := (t.roleInit && decide (REKEY_AFTER_TIME ≤ now - t.est))
        || decide (REKEY_AFTER_MESSAGES ≤ t.sctr)
      let p1 : PeerM := { p with pair := some { t with sctr := (t.sctr + 1) % 2 ^ 64 } }
      if okSend then
        let p2 : PeerM := { p1 with timers := p1.timers.sendData now isKeepalive }
        if rekeyFlag then
          let r := p2.rekeyIfIdle now jitter okInit
          (.encrypted, r.1, r.2)
        else (.encrypted, true, p2)
      else (.encrypted, false, p1)
    else p.writeFallback now isKeepalive jitter okInit
  | none => p.writeFallback now isKeepalive jitter okInit

/-- The queue drain loop of handle_response and handle_data: mem::take
empties the queue, then each taken closure is written with is_keepalive
false; an error aborts the loop, dropping the remaining taken closures.
okSend and okInit give the link outcomes of the i-th write. -/
def PeerM.drainGo (now jitter : Nat) (okSend okInit : Nat → Bool) :
    Nat → Nat → PeerM → Bool × PeerM
  | 0, _, p => (true, p)
  | k + 1, i, p =>
    let r := p.write now false jitter (okSend i) (okInit i)
    if r.2.1 then PeerM.drainGo now jitter okSend okInit k (i + 1) r.2.2
    else (false, r.2.2)

/-- The drain entry: take the queue, then run the loop. -/
def PeerM.drain (p : PeerM) (now jitter : Nat) (okSend okInit : Nat → Bool) :
    Bool × PeerM :=
  PeerM.drainGo now jitter okSend okInit p.queueLen 0 { p with queueLen := 0 }

/-- The prev and next arms of Peer::handle_data (reached when the pair arm
does not match): a packet on the prev index is decrypt-only, a packet on
the next index promotes next to pair (keeping the old pair receive index
as prev; the source leaves the next slot in place) and drains the queue;
any other index is an error.  okOpen is the outcome of the AEAD open. -/
def PeerM.handleDataRest (p : PeerM) (now msgIdx : Nat) (okOpen : Bool)
    (jitter : Nat) (okSend okInit : Nat → Bool) : Bool × PeerM :=
  if p.prevIdx == some msgIdx then (okOpen, p)
  else
    match p.next with
    | some nx =>
      if nx.1 == msgIdx then
        if !okOpen then (false, p)
        else
          let promoted : Tun := { roleInit := false, est := nx.2, sctr := 0, sidx := nx.1 }
          let p1 : PeerM :=
            { p with prevIdx := p.pair.map (fun t => t.sidx), pair := some promoted }
          p1.drain now jitter okSend okInit
      else (false, p)
    | none => (false, p)

/-- Peer::handle_data from tunnel/mod.rs.  msgIdx and ctr come from the
packet header; okOpen is the outcome of the AEAD open together with the
replay window (settled separately by C1 and C2); pktKeepalive states
whether the decrypted payload is empty.  Arms in source order: pair (with
the receive expiry check of Simplex::open_checked, a possible rekey, and
the recv_data timer update, in that order), then the rest.  The returned
Bool is the Result. -/
def PeerM.handleData (p : PeerM) (now msgIdx ctr : Nat) (okOpen pktKeepalive : Bool)
    (jitter : Nat) (okSend okInit : Nat → Bool) : Bool × PeerM :=
  match p.pair with
  | some t =>
    if t.sidx == msgIdx then
      if decide (REJECT_AFTER_TIME ≤ now - t.est) || decide (REJECT_AFTER_MESSAGES ≤ ctr) then
        (false, p)
      else if !okOpen then (false, p)
      else
        let rekeyFlag := t.roleInit &&
          decide (REJECT_AFTER_TIME - KEEPALIVE_TIMEOUT - REKEY_TIMEOUT ≤ now - t.est)
        if rekeyFlag then
          let r := p.rekeyIfIdle now jitter (okInit 0)
          if r.1 then (true, { r.2 with timers := r.2.timers.recvData now pktKeepalive })
          else (false, r.2)
        else (true, { p with timers := p.timers.recvData now pktKeepalive })
    else p.handleDataRest now msgIdx okOpen jitter okSend okInit
  | none => p.handleDataRest now msgIdx okOpen jitter okSend okInit

/-- Wireguard::rekey from lib.rs, the rekey timer handler: it logs an
error when rekey_elapsed, and then calls create_initiation in every case
(there is no early return after the log).  Returns (whether the give-up
message was logged, whether a new initiation went out, the peer state). -/
def rekeyFires (p : PeerM) (now jitter : Nat) (okInit : Bool) : Bool × Bool × PeerM :=
  let logged := p.timers.rekeyElapsed now
  let r := p.createInitiation now jitter okInit
  (logged, r.1, r.2)

end Wg

namespace Wg

/-- C5 counterexample: with establishment now and send counter
2 to the 64 minus 2 to the 13 minus 2, the claimed condition (elapsed
below REJECT_AFTER_TIME and counter below 2 to the 64 minus 2 to the 13)
holds, yet is_send_expired returns true: the source compares sctr + 1
against u64::MAX minus 2 to the 13. -/
theorem C5_counterexample :
    ¬ ((Tun.isSendExpired ⟨true, 0, 2 ^ 64 - 2 ^ 13 - 2, 0⟩ 0 = false) ↔
      ((0 : Nat) - 0 < REJECT_AFTER_TIME ∧
        (2 ^ 64 - 2 ^ 13 - 2 : Nat) < 2 ^ 64 - 2 ^ 13)) := by
  decide

/-- C5 amended: a session is usable for send (is_send_expired false, and
then Peer::write takes the encrypt arm rather than queueing) iff
now - established is below REJECT_AFTER_TIME and send counter + 1 is below
REJECT_AFTER_MESSAGES = u64::MAX - 2 to the 13. -/
theorem C5_send_usable_iff (now : Nat) (t : Tun) (h : t.sctr < 2 ^ 64 - 1) :
    (t.isSendExpired now = false ↔
      (now - t.est < REJECT_AFTER_TIME ∧ t.sctr + 1 < REJECT_AFTER_MESSAGES)) ∧
    (∀ (p : PeerM) (isKA : Bool) (jitter : Nat) (okSend okInit : Bool),
      p.pair = some t →
      ((p.write now isKA jitter okSend okInit).1 = WriteAction.encrypted ↔
        t.isSendExpired now = false)) := by
  constructor
  · unfold Tun.isSendExpired
    rw [Nat.mod_eq_of_lt (by omega)]
    simp only [Bool.or_eq_false_iff, decide_eq_false_iff_not]
    constructor
    · rintro ⟨h1, h2⟩
      exact ⟨by omega, by omega⟩
    · rintro ⟨h1, h2⟩
      exact ⟨by omega, by omega⟩
  · intro p isKA jitter okSend okInit hp
    unfold PeerM.write
    rw [hp]
    cases hexp : t.isSendExpired now
    · simp only [hexp, Bool.not_false, if_true]
      cases okSend
      · simp
      · by_cases hflag : ((t.roleInit && decide (REKEY_AFTER_TIME ≤ now - t.est))
          || decide (REKEY_AFTER_MESSAGES ≤ t.sctr)) = true
        · simp [hflag]
        · simp [hflag]
    · simp only [hexp, Bool.not_true, if_false]
      unfold PeerM.writeFallback
      cases isKA
      · simp
      · simp

/-- Witness for C5 at a fresh session. -/
theorem C5_witness :
    ((Tun.isSendExpired ⟨true, 0, 0, 9⟩ 0 = false ↔
      ((0 : Nat) - 0 < REJECT_AFTER_TIME ∧ (0 : Nat) + 1 < REJECT_AFTER_MESSAGES)) ∧
    ((PeerM.write ⟨none, some ⟨true, 0, 0, 9⟩, none, none, 0, 0, TimersM.new⟩
        0 false 0 true true).1 = WriteAction.encrypted ↔
      Tun.isSendExpired ⟨true, 0, 0, 9⟩ 0 = false)) :=
  ⟨(C5_send_usable_iff 0 ⟨true, 0, 0, 9⟩ (by norm_num)).1,
   (C5_send_usable_iff 0 ⟨true, 0, 0, 9⟩ (by norm_num)).2
     ⟨none, some ⟨true, 0, 0, 9⟩, none, none, 0, 0, TimersM.new⟩ false 0 true true rfl⟩

/-- C6: evaluation at the failing input.  A peer whose rekey_start is 0 at
now = REKEY_ATTEMPT_TIME has rekey_elapsed true; the handler logs the
give-up message and nevertheless sends a new initiation (the sent slot is
filled with the fresh index): lib.rs has no return after the error log. -/
theorem C6_rekey_handler_sends_after_attempt_time :
    (rekeyFires ⟨none, none, none, none, 7, 0, ⟨none, none, some 0⟩⟩
      REKEY_ATTEMPT_TIME 0 true).1 = true ∧
    (rekeyFires ⟨none, none, none, none, 7, 0, ⟨none, none, some 0⟩⟩
      REKEY_ATTEMPT_TIME 0 true).2.1 = true ∧
    (rekeyFires ⟨none, none, none, none, 7, 0, ⟨none, none, some 0⟩⟩
      REKEY_ATTEMPT_TIME 0 true).2.2.sentIdx = some 7 := by
  refine ⟨by decide, rfl, rfl⟩

/-- Frame relation on timer states: the keepalive slot is unchanged or
cleared (never newly armed), and an armed rekey timer stays armed with a
deadline at least as late (never deleted). -/
def TimerFrame (t t2 : TimersM) : Prop :=
  (t2.keepalive = t.keepalive ∨ t2.keepalive = none) ∧
  (∀ d, t.rekey = some d → ∃ e, t2.rekey = some e ∧ d ≤ e)

theorem TimerFrame.refl (t : TimersM) : TimerFrame t t :=
  ⟨Or.inl rfl, fun d h => ⟨d, h, Nat.le_refl d⟩⟩

theorem TimerFrame.trans {a b c : TimersM} (h1 : TimerFrame a b)
    (h2 : TimerFrame b c) : TimerFrame a c := by
  obtain ⟨hk1, hr1⟩ := h1
  obtain ⟨hk2, hr2⟩ := h2
  constructor
  · rcases hk2 with hk2 | hk2
    · rw [hk2]
      exact hk1
    · exact Or.inr hk2
  · intro d hd
    obtain ⟨e, he, hde⟩ := hr1 d hd
    obtain ⟨g, hg, heg⟩ := hr2 e he
    exact ⟨g, hg, Nat.le_trans hde heg⟩

theorem resetRekey_frame (t : TimersM) (now dur : Nat) :
    TimerFrame t (t.resetRekey now dur) := by
  refine ⟨Or.inl rfl, fun d hd => ⟨max (t.rekey.getD 0) (now + dur), rfl, ?_⟩⟩
  rw [hd]
  simp

theorem sendData_frame (t : TimersM) (now : Nat) (ka : Bool) :
    TimerFrame t (t.sendData now ka) := by
  unfold TimersM.sendData
  cases ka
  · simp only [Bool.false_eq_true, if_false]
    refine ⟨Or.inr rfl, fun d hd => ?_⟩
    exact (resetRekey_frame t now (KEEPALIVE_TIMEOUT + REKEY_TIMEOUT)).2 d hd
  · exact ⟨Or.inr rfl, fun d hd => ⟨d, hd, Nat.le_refl d⟩⟩

theorem sendInit_frame (t : TimersM) (now jitter : Nat) :
    TimerFrame t (t.sendInit now jitter) := by
  unfold TimersM.sendInit
  by_cases hrs : t.rekeyStart = none
  · simp only [hrs, if_true]
    exact (resetRekey_frame _ now _)
  · simp only [hrs, if_false]
    exact (resetRekey_frame _ now _)

theorem createInitiation_frame (p : PeerM) (now jitter : Nat) (okInit : Bool) :
    TimerFrame p.timers (p.createInitiation now jitter okInit).2.timers := by
  unfold PeerM.createInitiation
  cases okInit
  · exact TimerFrame.refl _
  · exact sendInit_frame _ now jitter

theorem rekeyIfIdle_frame (p : PeerM) (now jitter : Nat) (okInit : Bool) :
    TimerFrame p.timers (p.rekeyIfIdle now jitter okInit).2.timers := by
  unfold PeerM.rekeyIfIdle
  by_cases hik : p.timers.isRekeying = true
  · simp only [hik, if_true]
    exact TimerFrame.refl _
  · simp only [eq_false_of_ne_true hik, Bool.false_eq_true, if_false]
    exact createInitiation_frame p now jitter okInit

theorem writeFallback_frame (p : PeerM) (now : Nat) (ka : Bool) (jitter : Nat)
    (okInit : Bool) : TimerFrame p.timers (p.writeFallback now ka jitter okInit).2.2.timers := by
  unfold PeerM.writeFallback
  cases ka
  · simp only [Bool.not_false, if_true]
    exact rekeyIfIdle_frame _ now jitter okInit
  · simp only [Bool.not_true, Bool.false_eq_true, if_false]
    exact TimerFrame.refl _

theorem write_frame (p : PeerM) (now : Nat) (ka : Bool) (jitter : Nat)
    (okSend okInit : Bool) :
    TimerFrame p.timers (p.write now ka jitter okSend okInit).2.2.timers := by
  unfold PeerM.write
  cases hp : p.pair
  · exact writeFallback_frame p now ka jitter okInit
  · next t =>
    dsimp only
    split
    · split
      · split
        · exact TimerFrame.trans (sendData_frame p.timers now ka)
            (rekeyIfIdle_frame _ now jitter okInit)
        · exact sendData_frame p.timers now ka
      · exact TimerFrame.refl _
    · exact writeFallback_frame p now ka jitter okInit

theorem drainGo_frame (now jitter : Nat) (okSend okInit : Nat → Bool) :
    ∀ (k i : Nat) (p : PeerM),
      TimerFrame p.timers (PeerM.drainGo now jitter okSend okInit k i p).2.timers := by
  intro k
  induction k with
  | zero => intro i p; exact TimerFrame.refl _
  | succ k ih =>
    intro i p
    unfold PeerM.drainGo
    by_cases hr : (p.write now false jitter (okSend i) (okInit i)).2.1 = true
    · simp only [hr, if_true]
      exact TimerFrame.trans (write_frame p now false jitter _ _) (ih (i + 1) _)
    · simp only [eq_false_of_ne_true hr, Bool.false_eq_true, if_false]
      exact write_frame p now false jitter _ _

theorem drain_frame (p : PeerM) (now jitter : Nat) (okSend okInit : Nat → Bool) :
    TimerFrame p.timers (p.drain now jitter okSend okInit).2.timers :=
  drainGo_frame now jitter okSend okInit p.queueLen 0 _

theorem recvData_notKeepalive (t : TimersM) (now : Nat) :
    (t.recvData now false).rekey = none ∧
    ((t.recvData now false).keepalive).isSome = true := by
  unfold TimersM.recvData TimersM.resetKeepalive
  by_cases hk : t.keepalive = none
  · simp [hk]
  · simp [hk, Option.isSome_iff_ne_none]

end Wg

namespace Wg

theorem handleDataRest_frame (p : PeerM) (now msgIdx : Nat) (okOpen : Bool)
    (jitter : Nat) (okSend okInit : Nat → Bool) :
    TimerFrame p.timers
      (p.handleDataRest now msgIdx okOpen jitter okSend okInit).2.timers := by
  unfold PeerM.handleDataRest
  split
  · exact TimerFrame.refl _
  · split
    · next nx =>
      split
      · split
        · exact TimerFrame.refl _
        · exact drain_frame _ now jitter okSend okInit
      · exact TimerFrame.refl _
    · exact TimerFrame.refl _

theorem handleDataRest_empty_queue (p : PeerM) (now msgIdx : Nat) (okOpen : Bool)
    (jitter : Nat) (okSend okInit : Nat → Bool) (hq : p.queueLen = 0) :
    (p.handleDataRest now msgIdx okOpen jitter okSend okInit).2.timers = p.timers := by
  unfold PeerM.handleDataRest
  split
  · rfl
  · split
    · next nx =>
      split
      · split
        · rfl
        · show (PeerM.drain _ now jitter okSend okInit).2.timers = p.timers
          unfold PeerM.drain
          dsimp only
          rw [hq]
          rfl
      · rfl
    · rfl

/-- C10: when a Data packet does not arrive on the current pair index (so
it is handled by the prev or next arm, or dropped), the peer timer state
obeys the frame: no keepalive timer is ever newly armed and an armed rekey
timer is never deleted, and with an empty queue the timers are exactly
unchanged; the received-data timer actions (delete rekey, arm keepalive)
run exactly when the packet arrives on the pair index and is accepted. -/
theorem C10_next_promotion_timer_frame
    (p : PeerM) (now msgIdx ctr : Nat) (okOpen pktKeepalive : Bool)
    (jitter : Nat) (okSend okInit : Nat → Bool) :
    ((∀ t, p.pair = some t → t.sidx ≠ msgIdx) →
      TimerFrame p.timers
        (p.handleData now msgIdx ctr okOpen pktKeepalive jitter okSend okInit).2.timers) ∧
    ((∀ t, p.pair = some t → t.sidx ≠ msgIdx) → p.queueLen = 0 →
      (p.handleData now msgIdx ctr okOpen pktKeepalive jitter okSend okInit).2.timers
        = p.timers) ∧
    (∀ t, p.pair = some t → t.sidx = msgIdx → pktKeepalive = false →
      (p.handleData now msgIdx ctr okOpen pktKeepalive jitter okSend okInit).1 = true →
      (p.handleData now msgIdx ctr okOpen pktKeepalive jitter okSend okInit).2.timers.rekey
          = none ∧
      ((p.handleData now msgIdx ctr okOpen pktKeepalive jitter okSend
          okInit).2.timers.keepalive).isSome = true) := by
  refine ⟨?_, ?_, ?_⟩
  · intro hnp
    unfold PeerM.handleData
    cases hp : p.pair
    · exact handleDataRest_frame p now msgIdx okOpen jitter okSend okInit
    · next t =>
      dsimp only
      have hne : (t.sidx == msgIdx) = false := by
        simp only [beq_eq_false_iff_ne, ne_eq]
        exact hnp t hp
      rw [hne, if_neg Bool.false_ne_true]
      exact handleDataRest_frame p now msgIdx okOpen jitter okSend okInit
  · intro hnp hq
    unfold PeerM.handleData
    cases hp : p.pair
    · exact handleDataRest_empty_queue p now msgIdx okOpen jitter okSend okInit hq
    · next t =>
      dsimp only
      have hne : (t.sidx == msgIdx) = false := by
        simp only [beq_eq_false_iff_ne, ne_eq]
        exact hnp t hp
      rw [hne, if_neg Bool.false_ne_true]
      exact handleDataRest_empty_queue p now msgIdx okOpen jitter okSend okInit hq
  · intro t hp hsidx hka hok
    unfold PeerM.handleData at hok ⊢
    rw [hp] at hok ⊢
    dsimp only at hok ⊢
    rw [if_pos (by rw [hsidx]; exact beq_self_eq_true msgIdx)] at hok ⊢
    rw [hka] at hok ⊢
    by_cases h1 : (decide (REJECT_AFTER_TIME ≤ now - t.est)
        || decide (REJECT_AFTER_MESSAGES ≤ ctr)) = true
    · rw [if_pos h1] at hok
      simp at hok
    · rw [if_neg h1] at hok ⊢
      by_cases h2 : (!okOpen) = true
      · rw [if_pos h2] at hok
        simp at hok
      · rw [if_neg h2] at hok ⊢
        by_cases h3 : (t.roleInit &&
            decide (REJECT_AFTER_TIME - KEEPALIVE_TIMEOUT - REKEY_TIMEOUT ≤ now - t.est)) = true
        · rw [if_pos h3] at hok ⊢
          by_cases h4 : (p.rekeyIfIdle now jitter (okInit 0)).1 = true
          · rw [if_pos h4] at hok ⊢
            dsimp only
            exact recvData_notKeepalive _ now
          · rw [if_neg h4] at hok
            simp at hok
        · rw [if_neg h3] at hok ⊢
          dsimp only
          exact recvData_notKeepalive _ now

/-- Witness for C10: a peer with an empty queue whose next slot matches
the packet index. -/
theorem C10_witness :
    (TimerFrame (TimersM.mk (some 77) (some 3) none)
      ((PeerM.mk none none (some (5, 0)) none 0 0 (TimersM.mk (some 77) (some 3) none)).handleData
        1 5 0 true false 0 (fun _ => true) (fun _ => true)).2.timers ∧
    ((PeerM.mk none none (some (5, 0)) none 0 0 (TimersM.mk (some 77) (some 3) none)).handleData
        1 5 0 true false 0 (fun _ => true) (fun _ => true)).2.timers
      = TimersM.mk (some 77) (some 3) none) :=
  ⟨(C10_next_promotion_timer_frame _ 1 5 0 true false 0 _ _).1
      (fun t ht => by cases ht),
   (C10_next_promotion_timer_frame _ 1 5 0 true false 0 _ _).2.1
      (fun t ht => by cases ht) rfl⟩

end Wg

/-! ## Chain consume and the session key split
src/wireguard/src/noise/chain.rs and src/wireguard/src/tunnel/state.rs.
HMAC-BLAKE2s belongs to the external crypto suite and is an arbitrary
function from a key and a message (byte lists) to a 32-byte value. -/

namespace Noise

/-- Chain::consume from chain.rs: kdf with one requested output on the
empty input computes T0 = HMAC(C, empty), then T1 = HMAC(T0, byte 1)
which replaces the chain value, then T2 = HMAC(T0, T1 concat byte 2);
consume hands back (chain value, first output) = (T1, T2). -/
def consume (hmac : List Nat → List Nat → List Nat) (c : List Nat) :
    List Nat × List Nat :=
  let t0 := hmac c []
  let t1 := hmac t0 [1]
  let t2 := hmac t0 (t1 ++ [2])
  (t1, t2)

/-- The two directional keys of a full-duplex session. -/
structure DuplexKeys where
  sendKey : List Nat
  recvKey : List Nat

/-- The key split of Tunnel::new from state.rs: let (send, recv) =
chain.consume(). -/
def tunnelNewKeys (hmac : List Nat → List Nat → List Nat) (c : List Nat) :
    DuplexKeys :=
  let sr := consume hmac c
  { sendKey := sr.1, recvKey := sr.2 }

/-- The key split of Next::new from state.rs: let (recv, send) =
chain.consume(); skey is the send key, rkey the receive key. -/
def nextNewKeys (hmac : List Nat → List Nat → List Nat) (c : List Nat) :
    DuplexKeys :=
  let rs := consume hmac c
  { sendKey := rs.2, recvKey := rs.1 }

/-- C7: Tunnel::new (initiator) binds consume() as (send, recv) while
Next::new (responder) binds the same consume() as (recv, send); for equal
chains the initiator send key is the responder receive key and the
initiator receive key is the responder send key. -/
theorem C7_consume_split_order (hmac : List Nat → List Nat → List Nat)
    (c : List Nat) :
    (tunnelNewKeys hmac c).sendKey = (consume hmac c).1 ∧
    (tunnelNewKeys hmac c).recvKey = (consume hmac c).2 ∧
    (nextNewKeys hmac c).recvKey = (consume hmac c).1 ∧
    (nextNewKeys hmac c).sendKey = (consume hmac c).2 ∧
    (tunnelNewKeys hmac c).sendKey = (nextNewKeys hmac c).recvKey ∧
    (tunnelNewKeys hmac c).recvKey = (nextNewKeys hmac c).sendKey :=
  ⟨rfl, rfl, rfl, rfl, rfl, rfl⟩

end Noise

/-! ## Cookie message layout, src/wireguard/src/packet.rs,
src/wireguard/src/mac.rs and src/wireguard/src/lib.rs -/

namespace Packet

/-- Size of the tag field (u32) of struct Cookie in packet.rs. -/
def cookieTagSize : Nat := 4

/-- Size of the idx field (u32) of struct Cookie. -/
def cookieIdxSize : Nat := 4

/-- Size of the nonce field of struct Cookie: 24 bytes. -/
def cookieNonceSize : Nat := 24

/-- Size of the cookie (sealed cookie) field of struct Cookie: 32 bytes. -/
def cookieSealedSize : Nat := 32

/-- Size of the repr(C) Cookie message: the four fields in order. -/
def cookieSize : Nat :=
  cookieTagSize + cookieIdxSize + cookieNonceSize + cookieSealedSize

/-- The ciphertext half of the sealed cookie as split in
CookieMac::handle_cookie (mac.rs): 16 bytes of XChaCha20-Poly1305
ciphertext over the 16-byte cookie value tau. -/
def cookieTauSize : Nat := 16

/-- The Poly1305 tag half of the sealed cookie: 16 bytes. -/
def cookieMacTagSize : Nat := 16

/-- Wireguard::cookie from lib.rs: validate_packet_size drops any packet
whose length differs from the size of struct Cookie. -/
def cookieDropped (len : Nat) : Bool := len != cookieSize

/-- C8 counterexample: the sealed cookie field of the Cookie message is 32
bytes (16-byte ciphertext plus 16-byte tag), not 48. -/
theorem C8_counterexample : cookieSealedSize = 32 ∧ cookieSealedSize ≠ 48 := by
  decide

/-- C8 amended: a Cookie message is 64 bytes, laid out as a u32 tag, a u32
receiver index, a 24-byte nonce and a 32-byte sealed cookie (16-byte
XChaCha20-Poly1305 ciphertext of the 16-byte cookie plus 16-byte tag), at
offsets 0, 4, 8 and 32; the receiver drops any Cookie packet whose length
differs from 64. -/
theorem C8_cookie_layout :
    cookieSize = 64 ∧
    cookieSealedSize = 32 ∧
    cookieSealedSize = cookieTauSize + cookieMacTagSize ∧
    cookieTauSize = 16 ∧
    cookieTagSize = 4 ∧
    cookieTagSize + cookieIdxSize = 8 ∧
    cookieTagSize + cookieIdxSize + cookieNonceSize = 32 ∧
    (∀ len : Nat, cookieDropped len = false ↔ len = 64) := by
  refine ⟨rfl, rfl, rfl, rfl, rfl, rfl, rfl, ?_⟩
  intro len
  simp [cookieDropped, cookieSize, cookieTagSize, cookieIdxSize, cookieNonceSize,
    cookieSealedSize]

end Packet

/-! ## Ephemeral port allocation, src/net/src/udp/mod.rs -/

namespace Udp

/-- Constant EPHEMERAL from udp/mod.rs: the first ephemeral port. -/
def EPHEMERAL : Nat := 49152

/-- The cursor step of Interface::bind_eph and Interface::connect:
nxt.checked_add(1).unwrap_or(EPHEMERAL), a u16 increment that wraps to
EPHEMERAL only on overflow, that is from port 65535. -/
def stepPort (n : Nat) : Nat := if n = 65535 then EPHEMERAL else n + 1

/-- The port search loop of bind_eph, indexed by the number of loop
iterations still granted; the source loop is unbounded (its comment: if
all ports in the ephemeral range are full, this will loop forever), so
termination within some fuel and divergence for every fuel are the two
outcomes of interest.  taken is the occupancy of the port map. -/
def findPort (taken : Nat → Bool) : Nat → Nat → Option Nat
  | 0, _ => none
  | fuel + 1, nxt =>
    let m := stepPort nxt
    if taken m then findPort taken fuel m else some m

/-- Iterated cursor step. -/
def iterPort (nxt : Nat) : Nat → Nat
  | 0 => nxt
  | k + 1 => stepPort (iterPort nxt k)

theorem iterPort_closed (nxt : Nat) (h1 : EPHEMERAL ≤ nxt) (h2 : nxt ≤ 65535) :
    ∀ k, iterPort nxt k = EPHEMERAL + (nxt - EPHEMERAL + k) % 16384 := by
  intro k
  induction k with
  | zero =>
    show nxt = EPHEMERAL + (nxt - EPHEMERAL + 0) % 16384
    simp only [EPHEMERAL] at *
    omega
  | succ k ih =>
    show stepPort (iterPort nxt k) = EPHEMERAL + (nxt - EPHEMERAL + (k + 1)) % 16384
    rw [ih]
    unfold stepPort
    split
    · next h =>
      simp only [EPHEMERAL] at *
      omega
    · next h =>
      simp only [EPHEMERAL] at *
      omega

theorem iterPort_shift (nxt : Nat) :
    ∀ k, iterPort (stepPort nxt) k = iterPort nxt (k + 1) := by
  intro k
  induction k with
  | zero => rfl
  | succ k ih =>
    show stepPort (iterPort (stepPort nxt) k) = stepPort (iterPort nxt (k + 1))
    rw [ih]

theorem findPort_none_iff (taken : Nat → Bool) :
    ∀ (fuel nxt : Nat),
      (findPort taken fuel nxt = none ↔
        ∀ k, 1 ≤ k → k ≤ fuel → taken (iterPort nxt k) = true) := by
  intro fuel
  induction fuel with
  | zero =>
    intro nxt
    constructor
    · intro _ k hk1 hk2
      omega
    · intro _
      rfl
  | succ fuel ih =>
    intro nxt
    unfold findPort
    by_cases ht : taken (stepPort nxt) = true
    · rw [if_pos ht, ih (stepPort nxt)]
      constructor
      · intro hall k hk1 hk2
        match k, hk1 with
        | 1, _ => exact ht
        | j + 2, _ =>
          rw [show j + 2 = (j + 1) + 1 by rfl, ← iterPort_shift nxt (j + 1)]
          exact hall (j + 1) (by omega) (by omega)
      · intro hall k hk1 hk2
        rw [iterPort_shift nxt k]
        exact hall (k + 1) (by omega) (by omega)
    · rw [if_neg ht]
      constructor
      · intro hcontra
        simp at hcontra
      · intro hall
        exact absurd (hall 1 (by omega) (by omega)) ht
  
theorem findPort_some (taken : Nat → Bool) :
    ∀ (fuel nxt q : Nat), findPort taken fuel nxt = some q →
      taken q = false ∧ ∃ k, 1 ≤ k ∧ k ≤ fuel ∧ q = iterPort nxt k := by
  intro fuel
  induction fuel with
  | zero =>
    intro nxt q h
    simp [findPort] at h
  | succ fuel ih =>
    intro nxt q h
    unfold findPort at h
    by_cases ht : taken (stepPort nxt) = true
    · rw [if_pos ht] at h
      obtain ⟨htk, k, hk1, hk2, hq⟩ := ih (stepPort nxt) q h
      exact ⟨htk, k + 1, by omega, by omega, by rw [hq, iterPort_shift]⟩
    · rw [if_neg ht] at h
      have hq : q = stepPort nxt := by
        cases h
        rfl
      refine ⟨by rw [hq]; exact eq_false_of_ne_true ht, 1, by omega, by omega, hq⟩

/-- C9 counterexample: when every port is taken the search never returns,
for any number of loop iterations: the source loop has no exit for a full
map (it does not reach any fatal condition, it loops forever). -/
theorem C9_counterexample :
    ¬ ∃ (fuel q : Nat), findPort (fun _ => true) fuel 49152 = some q := by
  rintro ⟨fuel, q, h⟩
  have hfalse := (findPort_some (fun _ => true) fuel 49152 q h).1
  simp at hfalse

/-- C9 amended: starting from any cursor in the ephemeral range, when some
port of [49152, 65535] is free the search terminates within 16384 steps
(one pass over the range, wrapping at most once) and returns a free port
of the range; when every port of the range is taken the search runs
forever (it returns no port for any iteration bound). -/
theorem C9_bind_eph_search (taken : Nat → Bool) (nxt : Nat)
    (h1 : EPHEMERAL ≤ nxt) (h2 : nxt ≤ 65535) :
    ((∃ q, EPHEMERAL ≤ q ∧ q ≤ 65535 ∧ taken q = false) →
      ∃ q, findPort taken 16384 nxt = some q ∧ EPHEMERAL ≤ q ∧ q ≤ 65535 ∧
        taken q = false) ∧
    ((∀ q, EPHEMERAL ≤ q → q ≤ 65535 → taken q = true) →
      ∀ fuel, findPort taken fuel nxt = none) := by
  constructor
  · rintro ⟨q, hq1, hq2, hq3⟩
    cases hfp : findPort taken 16384 nxt with
    | none =>
      exfalso
      have hall := (findPort_none_iff taken 16384 nxt).1 hfp
      by_cases hlt : nxt < q
      · have hiter : iterPort nxt (q - nxt) = q := by
          rw [iterPort_closed nxt h1 h2]
          simp only [EPHEMERAL] at *
          omega
        have htk := hall (q - nxt) (by omega) (by simp only [EPHEMERAL] at *; omega)
        rw [hiter, hq3] at htk
        cases htk
      · have hiter : iterPort nxt (q + 16384 - nxt) = q := by
          rw [iterPort_closed nxt h1 h2]
          simp only [EPHEMERAL] at *
          omega
        have htk := hall (q + 16384 - nxt) (by simp only [EPHEMERAL] at *; omega)
          (by simp only [EPHEMERAL] at *; omega)
        rw [hiter, hq3] at htk
        cases htk
    | some p =>
      obtain ⟨htk, k, hk1, hk2, hp⟩ := findPort_some taken 16384 nxt p hfp
      refine ⟨p, rfl, ?_, ?_, htk⟩
      · rw [hp, iterPort_closed nxt h1 h2]
        simp only [EPHEMERAL]
        omega
      · rw [hp, iterPort_closed nxt h1 h2]
        simp only [EPHEMERAL] at *
        omega
  · intro hall fuel
    rw [findPort_none_iff]
    intro k _ _
    apply hall
    · rw [iterPort_closed nxt h1 h2]
      simp only [EPHEMERAL]
      omega
    · rw [iterPort_closed nxt h1 h2]
      simp only [EPHEMERAL] at *
      omega

/-- Witness for C9: with only port 50000 free, the search from the initial
cursor finds it. -/
theorem C9_witness :
    ∃ q, findPort (fun x => decide (x ≠ 50000)) 16384 49152 = some q ∧
      EPHEMERAL ≤ q ∧ q ≤ 65535 ∧ (fun x => decide (x ≠ 50000)) q = false :=
  (C9_bind_eph_search (fun x => decide (x ≠ 50000)) 49152 (by decide)
      (by decide)).1
    ⟨50000, by decide, by decide, by decide⟩

end Udp
